import Mathlib

/-
  Shallow embedding of the moonalloy linear-algebra core
  (src/linalg/array.rs, src/linalg/matrix.rs, src/linalg/methods.rs).

  Numeric model: a 64-bit float is modelled by `F` below, an exact rational
  for every finite value plus a single absorbing non-finite element `nan`.
  Arithmetic on finite values is idealized as exact rational arithmetic
  (rounding and overflow are not modelled); `nan` propagates through the
  arithmetic operators and every IEEE comparison involving it is false,
  exactly as for a Rust `f64` NaN.  Division by zero, which IEEE sends to
  an infinity or NaN, is collapsed to `nan` (no claim settled here divides
  by zero on its decisive inputs).  Consequences of the idealization:
  results that differ grossly from a claimed value (more than any rounding
  could account for), and properties involving no finite-value rounding at
  all (value copies, comparisons, panics, shapes, multiplications by exact
  0.0 and 1.0 and additions of exact 0.0), transfer to the real program;
  exact-equality properties of rounded finite arithmetic (for instance
  that (a + b) - b recovers a exactly) do NOT transfer — real IEEE
  arithmetic violates them (e.g. (1.0 + 1e300) - 1e300 = 0.0) — and are
  therefore not settled against this model.

  Fallible code (assert! / panicking index, slice accesses) is embedded as
  `Option`: `none` is a panic.  Reading memory through
  `std::slice::from_raw_parts_mut(ptr, n)` at an index below `n` but beyond
  the actual allocation (possible only for malformed matrices, undefined
  behaviour in Rust) is also embedded as `none`.
-/

namespace Moonalloy

/-- Model of a 64-bit IEEE float: an exact rational for finite values, plus one
absorbing non-finite element `nan`. -/
inductive F where
  | fin (q : ℚ)
  | nan
deriving DecidableEq

instance : Inhabited F := ⟨F.fin 0⟩

namespace F

/-- IEEE addition: NaN-propagating, exact on finite values. -/
def add : F → F → F
  | fin a, fin b => fin (a + b)
  | _, _ => nan

/-- IEEE subtraction: NaN-propagating, exact on finite values. -/
def sub : F → F → F
  | fin a, fin b => fin (a - b)
  | _, _ => nan

/-- IEEE multiplication: NaN-propagating, exact on finite values. -/
def mul : F → F → F
  | fin a, fin b => fin (a * b)
  | _, _ => nan

/-- IEEE division: NaN-propagating; a zero divisor gives a non-finite result,
collapsed to `nan` in this model. -/
def div : F → F → F
  | fin a, fin b => if b = 0 then nan else fin (a / b)
  | _, _ => nan

/-- IEEE strict less-than: false whenever an operand is NaN. -/
def lt : F → F → Bool
  | fin a, fin b => decide (a < b)
  | _, _ => false

/-- IEEE less-or-equal: false whenever an operand is NaN. -/
def le : F → F → Bool
  | fin a, fin b => decide (a ≤ b)
  | _, _ => false

/-- IEEE equality (the `==` / negated `!=` of `f64`): false whenever an operand
is NaN, in particular `beq nan nan = false`. -/
def beq : F → F → Bool
  | fin a, fin b => decide (a = b)
  | _, _ => false

end F

/-- Collects a list of fallible computations run in order: `none` (a panic)
anywhere aborts the whole computation. -/
def optList {α : Type} : List (Option α) → Option (List α)
  | [] => some []
  | none :: _ => none
  | some a :: rest => (optList rest).map (a :: ·)

namespace Array

/-- Embeds Array::of (array.rs): `len` slots all holding `val`. -/
def of (val : F) (len : Nat) : List F := List.replicate len val

/-- Embeds Array::zeros (array.rs). -/
def zeros (len : Nat) : List F := of (F.fin 0) len

/-- Embeds Array::ones (array.rs). -/
def ones (len : Nat) : List F := of (F.fin 1) len

/-- Embeds Array::plus (array.rs): asserts equal lengths, then adds
element-wise into a fresh array. -/
def plus (a b : List F) : Option (List F) :=
  if a.length = b.length then some (List.zipWith F.add a b) else none

/-- Embeds Array::minus (array.rs): asserts equal lengths, then subtracts
element-wise into a fresh array. -/
def minus (a b : List F) : Option (List F) :=
  if a.length = b.length then some (List.zipWith F.sub a b) else none

/-- Embeds Array::mult (array.rs): asserts equal lengths, then multiplies
element-wise into a fresh array. -/
def mult (a b : List F) : Option (List F) :=
  if a.length = b.length then some (List.zipWith F.mul a b) else none

/-- Embeds Array::dotp (array.rs): element-wise mult, then the iterator sum,
which left-folds addition starting from 0.0. -/
def dotp (a b : List F) : Option F :=
  (mult a b).map (fun v => v.foldl F.add (F.fin 0))

/-- Embeds Array::get (array.rs): asserts `index < len`, then reads. -/
def get (a : List F) (index : Nat) : Option F := a[index]?

/-- Embeds Array::set (array.rs): asserts `index < len`, then writes. -/
def set (a : List F) (val : F) (index : Nat) : Option (List F) :=
  if index < a.length then some (a.set index val) else none

/-- Embeds Array::splice (array.rs): asserts `first < last`, then copies
`self.get(i)` for `i` in `first..last` (each `get` asserts its own bound). -/
def splice (a : List F) (first last : Nat) : Option (List F) :=
  if first < last then
    optList ((List.range' first (last - first)).map (fun i => get a i))
  else none

/-- Embeds Array::concat (array.rs): self's elements followed by other's. -/
def concat (a b : List F) : List F := a ++ b

/-- Embeds impl PartialEq for Array (array.rs): lengths must agree and no
element pair may compare IEEE-unequal (`!=`); NaN is `!=` to everything,
itself included. -/
def eq (a b : List F) : Bool :=
  decide (a.length = b.length) && (List.zipWith F.beq a b).all (fun x => x)

/-- Modelled from the spec: `Array::scalar` is called by Matrix::scalar
(matrix.rs) and the FFI layer (lib.rs) but its definition is missing from
src/linalg/array.rs; spec §4.1/§4.2 describe scalar multiplication as
elementwise multiplication by the constant, mirroring Array::scalar_mult,
which computes `scalar * element`. -/
def scalar (a : List F) (scal : F) : List F := a.map (fun x => F.mul scal x)

end Array

/-- Embeds the Matrix struct (matrix.rs): explicit `rows` and `cols` fields
next to the row storage, exactly as in the source, so that the shape
invariant relating them to `arrays` is a real statement. -/
structure Matrix where
  rows : Nat
  cols : Nat
  arrays : List (List F)
deriving DecidableEq

namespace Matrix

/-- Models reading row `i` of the slice view
`std::slice::from_raw_parts_mut(self.arrays, self.rows)`: a panic (`none`)
for `i ≥ rows`; reading past the actual allocation (malformed matrix,
Rust UB) is also `none`. -/
def rowAt (m : Matrix) (i : Nat) : Option (List F) :=
  if i < m.rows then m.arrays[i]? else none

/-- Embeds Matrix::get (matrix.rs) and the `m[i][j]` Index chain: row access
checked against `rows`, element access checked against the row length. -/
def get (m : Matrix) (i j : Nat) : Option F :=
  (m.rowAt i).bind (fun r => Array.get r j)

/-- Embeds Matrix::new (matrix.rs): `is_valid_slice` reads `slice[0]` (panic
on an empty slice) and asserts every row length equals the first row's. -/
def new (slice : List (List F)) : Option Matrix :=
  match slice with
  | [] => none
  | r0 :: _ =>
    if slice.all (fun r => r.length = r0.length) then
      some ⟨slice.length, r0.length, slice⟩
    else none

/-- Embeds Matrix::of (matrix.rs): `rows` fresh rows of `Array::of(val, cols)`. -/
def of (val : F) (rows cols : Nat) : Matrix :=
  ⟨rows, cols, List.replicate rows (Array.of val cols)⟩

/-- Embeds Matrix::zeros (matrix.rs). -/
def zeros (rows cols : Nat) : Matrix := of (F.fin 0) rows cols

/-- Embeds Matrix::ones (matrix.rs). -/
def ones (rows cols : Nat) : Matrix := of (F.fin 1) rows cols

/-- Embeds Matrix::identity (matrix.rs): zeros(len, len), then 1.0 written on
the diagonal of each row. -/
def identity (len : Nat) : Matrix :=
  ⟨len, len, (List.range len).map (fun i => (Array.zeros len).set i (F.fin 1))⟩

/-- Embeds Matrix::plus (matrix.rs): asserts equal cols and rows, then adds
row-wise with Array::plus. -/
def plus (m1 m2 : Matrix) : Option Matrix :=
  if m1.cols = m2.cols ∧ m1.rows = m2.rows then
    (optList ((List.range m1.rows).map (fun i =>
      (m1.rowAt i).bind (fun r1 => (m2.rowAt i).bind (fun r2 => Array.plus r1 r2))))).map
      (fun d => ⟨m1.rows, m1.cols, d⟩)
  else none

/-- Embeds Matrix::minus (matrix.rs): asserts equal cols and rows, then
subtracts row-wise with Array::minus. -/
def minus (m1 m2 : Matrix) : Option Matrix :=
  if m1.cols = m2.cols ∧ m1.rows = m2.rows then
    (optList ((List.range m1.rows).map (fun i =>
      (m1.rowAt i).bind (fun r1 => (m2.rowAt i).bind (fun r2 => Array.minus r1 r2))))).map
      (fun d => ⟨m1.rows, m1.cols, d⟩)
  else none

/-- Embeds Matrix::elem_mult (matrix.rs): asserts equal cols and rows, then
multiplies row-wise with Array::mult. -/
def elem_mult (m1 m2 : Matrix) : Option Matrix :=
  if m1.cols = m2.cols ∧ m1.rows = m2.rows then
    (optList ((List.range m1.rows).map (fun i =>
      (m1.rowAt i).bind (fun r1 => (m2.rowAt i).bind (fun r2 => Array.mult r1 r2))))).map
      (fun d => ⟨m1.rows, m1.cols, d⟩)
  else none

/-- Embeds Matrix::scalar (matrix.rs): row-wise Array::scalar, keeping the
receiver's shape fields. -/
def scalar (m : Matrix) (scal : F) : Option Matrix :=
  (optList ((List.range m.rows).map (fun i =>
    (m.rowAt i).map (fun r => Array.scalar r scal)))).map
    (fun d => ⟨m.rows, m.cols, d⟩)

/-- Embeds Matrix::transpose (matrix.rs): for each `i` in `0..cols` builds a
fresh row of length `rows` whose entry `j` is `self[j].get(i)`; the result
carries `rows := self.cols`, `cols := self.rows`. -/
def transpose (m : Matrix) : Option Matrix :=
  (optList ((List.range m.cols).map (fun i =>
    optList ((List.range m.rows).map (fun j =>
      (m.rowAt j).bind (fun r => Array.get r i)))))).map
    (fun d => ⟨m.cols, m.rows, d⟩)

/-- Embeds Matrix::mult (matrix.rs): asserts `self.rows == other.cols`, takes
`mat_t = self.transpose()`, then for `i` in `0..self.cols` and `j` in
`0..other.rows` writes `mat_t[j].dotp(&other[i])`; `mat_t[j]` is indexed
through a view of length `mat_t.rows = self.cols` and `other[i]` through a
view of length `other.rows`, so either index can panic.  The result carries
`rows := other.rows`, `cols := self.cols`. -/
def mult (m1 m2 : Matrix) : Option Matrix :=
  if m1.rows = m2.cols then
    m1.transpose.bind (fun t =>
      (optList ((List.range m1.cols).map (fun i =>
        optList ((List.range m2.rows).map (fun j =>
          (t.rowAt j).bind (fun rj =>
            (m2.rowAt i).bind (fun ri => Array.dotp rj ri))))))).map
        (fun d => ⟨m2.rows, m1.cols, d⟩))
  else none

/-- Embeds Matrix::set (matrix.rs): delegates to the row's Array::set. -/
def set (m : Matrix) (val : F) (i j : Nat) : Option Matrix :=
  (m.rowAt i).bind (fun r =>
    (Array.set r val j).map (fun r2 => ⟨m.rows, m.cols, m.arrays.set i r2⟩))

/-- Embeds Matrix::set_row (matrix.rs): offset = cols - arr.len() when arr is
shorter than cols, else 0; then writes arr's elements at columns
`elem + offset` of row `row` through Matrix::set. -/
def set_row (m : Matrix) (arr : List F) (row : Nat) : Option Matrix :=
  let offset := if arr.length < m.cols then m.cols - arr.length else 0
  (List.range arr.length).foldl
    (fun acc elem => acc.bind (fun mm =>
      (Array.get arr elem).bind (fun v => Matrix.set mm v row (elem + offset))))
    (some m)

/-- Embeds Matrix::dimensions (matrix.rs). -/
def dimensions (m : Matrix) : Nat × Nat := (m.rows, m.cols)

/-- Embeds impl PartialEq for Matrix (matrix.rs): shape fields must agree and
every row pair must satisfy Array's IEEE-based equality. -/
def eq (m1 m2 : Matrix) : Bool :=
  decide (m1.rows = m2.rows) && decide (m1.cols = m2.cols) &&
  ((List.range m1.rows).all (fun i =>
    match m1.arrays[i]?, m2.arrays[i]? with
    | some a, some b => Array.eq a b
    | _, _ => false))

/-- Modelled from the spec: `Matrix::swap_rows` is called by row_echelon_form
(methods.rs) but its definition is missing from src/linalg/matrix.rs;
spec §4.2 describes it as exchanging the two row Arrays of the receiver. -/
def swap_rows (m : Matrix) (i j : Nat) : Option Matrix :=
  (m.rowAt i).bind (fun ri => (m.rowAt j).bind (fun rj =>
    some ⟨m.rows, m.cols, (m.arrays.set i rj).set j ri⟩))

/-- Modelled from the spec: `Matrix::augment` is called by gauss_elimination
(methods.rs) but its definition is missing from src/linalg/matrix.rs;
spec §4.2/§4.3 describe it as appending the Array as one additional column
to every row, giving a rows×(cols+1) Matrix, with a right-hand side whose
length differs from `rows` being a fatal ShapeMismatch. -/
def augment (m : Matrix) (b : List F) : Option Matrix :=
  if b.length = m.rows then
    (optList ((List.range m.rows).map (fun i =>
      (m.rowAt i).bind (fun r => (Array.get b i).map (fun v => r ++ [v]))))).map
      (fun d => ⟨m.rows, m.cols + 1, d⟩)
  else none

end Matrix

/-- Shape invariant from the spec's data model: the row storage holds exactly
`rows` row Arrays, each of length exactly `cols`. -/
def WF (m : Matrix) : Prop :=
  m.arrays.length = m.rows ∧ ∀ r ∈ m.arrays, r.length = m.cols

instance (m : Matrix) : Decidable (WF m) := by
  unfold WF; infer_instance

/-- An Array contains no NaN element. -/
def Array.noNaN (a : List F) : Prop := ∀ x ∈ a, x ≠ F.nan

instance (a : List F) : Decidable (Array.noNaN a) := by
  unfold Array.noNaN; infer_instance

/-- A Matrix contains no NaN entry. -/
def Matrix.noNaN (m : Matrix) : Prop := ∀ r ∈ m.arrays, ∀ x ∈ r, x ≠ F.nan

instance (m : Matrix) : Decidable (Matrix.noNaN m) := by
  unfold Matrix.noNaN; infer_instance

/-- Embeds the `abs` closure inside row_echelon_form (methods.rs):
`if num < 0.0 { -1.0 * num } else { num }`.  For NaN the comparison is
false, so NaN is returned unchanged. -/
def fabs (num : F) : F :=
  if F.lt num (F.fin 0) then F.mul (F.fin (-1)) num else num

/-- Embeds the loop of argmax (methods.rs): walks the index list carrying
`(max_arg, max_out)` and updates on `max_out <= f(a[i][k])`, so a tie moves
the maximiser to the later index. -/
def argmaxGo (a : Matrix) (k : Nat) (f : F → F) :
    List Nat → Nat × F → Option (Nat × F)
  | [], p => some p
  | i :: rest, p =>
    (Matrix.get a i k).bind (fun vi =>
      argmaxGo a k f rest (if F.le p.2 (f vi) then (i, f vi) else p))

/-- Embeds argmax (methods.rs) for the range `start..stop`: the initial
maximum is `f(a[range.start][k])` (read before the loop, panicking if
`start` is out of bounds), then the whole range is scanned. -/
def argmax (start stop : Nat) (a : Matrix) (k : Nat) (f : F → F) : Option Nat :=
  (Matrix.get a start k).bind (fun v0 =>
    (argmaxGo a k f (List.range' start (stop - start)) (start, f v0)).map Prod.fst)

/-- Embeds the update of row `i` inside row_echelon_form (methods.rs):
`a[i][k] = 0.0`, then `a[i][j] = a[i][j] - a[h][j] * f` for `j` in
`(k+1)..n`, reading the pivot row `rowh` (never modified by this loop). -/
def elimRow (rowh rowi : List F) (k n : Nat) (f : F) : Option (List F) :=
  (Array.set rowi (F.fin 0) k).bind (fun r0 =>
    (List.range' (k + 1) (n - (k + 1))).foldl
      (fun acc j => acc.bind (fun r =>
        (Array.get r j).bind (fun rij =>
          (Array.get rowh j).bind (fun rhj =>
            Array.set r (F.sub rij (F.mul rhj f)) j))))
      (some r0))

/-- Embeds the elimination loop over rows `(h+1)..m` of row_echelon_form
(methods.rs): for each row `i`, `f = a[i][k] / a[h][k]` is computed from the
current matrix, then row `i` is rewritten in place. -/
def elimRows (a : Matrix) (h k n : Nat) (is : List Nat) : Option Matrix :=
  is.foldl
    (fun acc i => acc.bind (fun m =>
      (Matrix.get m i k).bind (fun vik =>
        (Matrix.get m h k).bind (fun vhk =>
          (m.rowAt h).bind (fun rowh =>
            (m.rowAt i).bind (fun rowi =>
              (elimRow rowh rowi k n (F.div vik vhk)).map
                (fun r2 => ⟨m.rows, m.cols, m.arrays.set i r2⟩)))))))
    (some a)

/-- Embeds the while loop of row_echelon_form (methods.rs) with explicit
fuel.  The source loop increments `k` on every iteration and runs only while
`k < n`, so the `n + 1` fuel supplied by `row_echelon_form` below can never
run out; the fuel-exhausted `none` branch is unreachable from that entry. -/
def refLoop (m n : Nat) : Nat → Matrix → Nat → Nat → Option Matrix
  | 0, _, _, _ => none
  | fuel + 1, a, h, k =>
    if h < m ∧ k < n then
      (argmax h m a k fabs).bind (fun imax =>
        (Matrix.get a imax k).bind (fun p =>
          if F.beq p (F.fin 0) then refLoop m n fuel a h (k + 1)
          else
            (a.swap_rows h imax).bind (fun a1 =>
              (elimRows a1 h k n (List.range' (h + 1) (m - (h + 1)))).bind
                (fun a2 => refLoop m n fuel a2 (h + 1) (k + 1)))))
    else some a

/-- Embeds row_echelon_form (methods.rs): `(m, n) = dimensions()`, cursors
start at `h = k = 0`. -/
def row_echelon_form (augmented : Matrix) : Option Matrix :=
  refLoop augmented.dimensions.1 augmented.dimensions.2
    (augmented.dimensions.2 + 1) augmented 0 0

/-- Embeds back_substitution (methods.rs).  `n = rows - 1` and `k = cols - 1`
underflow in Rust when `rows` or `cols` is zero (a panic in debug builds),
modelled as `none`.  Note that the source's row loop runs `i` UPWARD from 0
and its kernel reads `x[j]` from the current, still mostly zero `x`: only
`x[n]` has been written before the loop and the kernel indices stop at
`n - 1`, so every kernel term it reads is a yet-unassigned zero. -/
def back_substitution (reduced : Matrix) : Option (List F) :=
  if reduced.rows = 0 ∨ reduced.cols = 0 then none
  else
    let rows := reduced.rows
    let n := rows - 1
    let k := reduced.cols - 1
    (Matrix.get reduced n k).bind (fun yn =>
      (Matrix.get reduced n n).bind (fun dnn =>
        (Array.set (Array.zeros rows) (F.div yn dnn) n).bind (fun x0 =>
          (List.range rows).foldl
            (fun acc i => acc.bind (fun x =>
              ((List.range' (i + 1) (n - (i + 1))).foldl
                (fun kacc j => kacc.bind (fun kv =>
                  (Matrix.get reduced i j).bind (fun rij =>
                    (Array.get x j).map (fun xj => F.add kv (F.mul rij xj)))))
                (some (F.fin 0))).bind (fun kernel =>
                (Matrix.get reduced i k).bind (fun yi =>
                  (Matrix.get reduced i i).bind (fun dii =>
                    Array.set x (F.div (F.sub yi kernel) dii) i)))))
            (some x0))))

/-- Embeds gauss_elimination (methods.rs): augment, reduce, back-substitute
(the println! calls are I/O only). -/
def gauss_elimination (a : Matrix) (b : List F) : Option (List F) :=
  (a.augment b).bind (fun augmented =>
    (row_echelon_form augmented).bind (fun reduced => back_substitution reduced))

/-- Follows the words of the claim about back substitution, for comparison
with the source (not translated from the code): a result `x` for an
n×(n+1) matrix `R` must satisfy, for every row `i`,
`x[i] = (R[i][n] - Σ_{j=i+1}^{n-1} R[i][j]*x[j]) / R[i][i]`, the sum running
over every column strictly right of the diagonal and left of the augmented
column, with the self-referenced `x[j]` being the final returned values. -/
def backSubSpecHolds (reduced : Matrix) (x : List F) : Bool :=
  decide (x.length = reduced.rows) && decide (0 < reduced.rows) &&
  ((List.range reduced.rows).all (fun i =>
    let terms := (List.range' (i + 1) (reduced.rows - 1 - i)).map (fun j =>
      match Matrix.get reduced i j, x[j]? with
      | some rij, some xj => some (F.mul rij xj)
      | _, _ => none)
    match optList terms, Matrix.get reduced i reduced.rows,
        Matrix.get reduced i i, x[i]? with
    | some ts, some yi, some dii, some xi =>
        decide (xi = F.div (F.sub yi (ts.foldl F.add (F.fin 0))) dii)
    | _, _, _, _ => false))

/-! Helper lemmas. -/

lemma optList_eq_some {α : Type} :
    ∀ (l : List (Option α)) (xs : List α), optList l = some xs ↔ l = xs.map some := by
  intro l
  induction l with
  | nil =>
    intro xs
    constructor
    · intro h
      simp only [optList] at h
      cases h
      rfl
    · intro h
      have : xs = [] := by
        cases xs with
        | nil => rfl
        | cons y ys => simp at h
      subst this
      rfl
  | cons o rest ih =>
    intro xs
    cases o with
    | none =>
      simp only [optList]
      constructor
      · intro h; cases h
      · intro h
        cases xs with
        | nil => simp at h
        | cons y ys => simp at h
    | some a =>
      simp only [optList]
      constructor
      · intro h
        rcases Option.map_eq_some'.mp h with ⟨ys, hys, hxs⟩
        subst hxs
        simp [List.map_cons, (ih ys).mp hys]
      · intro h
        cases xs with
        | nil => simp at h
        | cons y ys =>
          simp only [List.map_cons, List.cons.injEq] at h
          obtain ⟨h1, h2⟩ := h
          have := (ih ys).mpr h2
          rw [this]
          simp only [Option.map_some']
          cases h1
          rfl

lemma optList_map_some {α β : Type} (l : List α) (f : α → Option β) (g : α → β)
    (h : ∀ x ∈ l, f x = some (g x)) : optList (l.map f) = some (l.map g) := by
  rw [optList_eq_some]
  rw [List.map_map]
  exact List.map_congr_left h

lemma optList_none {α : Type} :
    ∀ (l : List (Option α)), none ∈ l → optList l = none := by
  intro l
  induction l with
  | nil => intro h; cases h
  | cons o rest ih =>
    intro h
    cases o with
    | none => rfl
    | some a =>
      have : none ∈ rest := by
        rcases List.mem_cons.mp h with h1 | h1
        · cases h1
        · exact h1
      simp only [optList, ih this, Option.map_none']

lemma fabs_fin (q : ℚ) : fabs (F.fin q) = F.fin |q| := by
  simp only [fabs, F.lt, F.mul, decide_eq_true_eq]
  split_ifs with h
  · rw [abs_of_neg h]; ring_nf
  · rw [abs_of_nonneg (not_lt.mp h)]

lemma beq_self_iff (x : F) : F.beq x x = true ↔ x ≠ F.nan := by
  cases x with
  | fin q => simp [F.beq]
  | nan => simp [F.beq]

lemma array_eq_self_iff (a : List F) : Array.eq a a = true ↔ Array.noNaN a := by
  unfold Array.eq Array.noNaN
  induction a with
  | nil => simp
  | cons x rest ih =>
    simp only [List.zipWith_cons_cons, List.all_cons, List.length_cons, decide_True,
      Bool.true_and, Bool.and_eq_true, List.mem_cons] at *
    constructor
    · rintro ⟨hx, hrest⟩
      intro y hy
      rcases hy with rfl | hy
      · exact (beq_self_iff y).mp hx
      · exact (ih.mp (by simpa using hrest)) y hy
    · intro h
      refine ⟨(beq_self_iff x).mpr (h x (Or.inl rfl)), ?_⟩
      simpa using ih.mpr (fun y hy => h y (Or.inr hy))

/-! Theorems settling the claims.  The Batteries rational-arithmetic
operations are irreducible by default, which blocks kernel evaluation of
concrete instances; making them semireducible locally lets `decide`
evaluate the embedded code on concrete inputs. -/

section ConcreteEvaluation

attribute [local semireducible] Rat.add Rat.sub Rat.mul Rat.inv Rat.ofScientific

/-- Fidelity check: the embedding reproduces the unit test
test_row_echelon_form of methods.rs exactly. -/
theorem repo_test_row_echelon_form :
    ((Matrix.augment ⟨2, 2, [[F.fin 3, F.fin 2], [F.fin (-6), F.fin 6]]⟩
        [F.fin 7, F.fin 6]).bind row_echelon_form)
      = some ⟨2, 3, [[F.fin (-6), F.fin 6, F.fin 6], [F.fin 0, F.fin 5, F.fin 10]]⟩ := by
  decide

/-- Fidelity check: the embedding reproduces the unit test
test_gauss_elimination of methods.rs exactly (including its mathematically
wrong expected value [-1, 2]; the true solution of 3x+2y=7, -6x+6y=6 is
[1, 2]). -/
theorem repo_test_gauss_elimination :
    gauss_elimination ⟨2, 2, [[F.fin 3, F.fin 2], [F.fin (-6), F.fin 6]]⟩
        [F.fin 7, F.fin 6]
      = some [F.fin (-1), F.fin 2] := by
  decide

/-- Fidelity check: the embedding reproduces the dotp unit test of array.rs
and spec scenario 4. -/
theorem repo_test_dotp :
    Array.dotp [F.fin 1, F.fin 2, F.fin 3] [F.fin 2, F.fin 3, F.fin 5]
      = some (F.fin 23) := by
  decide

/-- Fidelity check: the embedding reproduces the mult unit test of matrix.rs
exactly. -/
theorem repo_test_mult :
    Matrix.mult ⟨2, 2, [[F.fin 1, F.fin 2], [F.fin 3, F.fin 4]]⟩
        ⟨2, 2, [[F.fin 1, F.fin 2], [F.fin 3, F.fin 4]]⟩
      = some ⟨2, 2, [[F.fin 7, F.fin 10], [F.fin 15, F.fin 22]]⟩ := by
  decide

/-- Fidelity check: identity(2) equals [[1,0],[0,1]] (matrix.rs unit test and
spec scenario 5), and zeros(3)/ones(3) match their literals (spec
scenario 3). -/
theorem repo_test_constructors :
    Matrix.eq (Matrix.identity 2) ⟨2, 2, [[F.fin 1, F.fin 0], [F.fin 0, F.fin 1]]⟩ = true ∧
    Array.eq (Array.zeros 3) [F.fin 0, F.fin 0, F.fin 0] = true ∧
    Array.eq (Array.ones 3) [F.fin 1, F.fin 1, F.fin 1] = true := by
  decide

/-- C1: the claim says gauss_elimination inverts the row-wise dot products, and
in particular returns approximately [2, 3, -1] on
A = [[2,1,-1],[-3,-1,2],[-2,1,2]], b = [8,-11,-3].  The code does not: b is
indeed the vector of row-wise dot products of A with x = [2,3,-1] (last three
conjuncts), yet the solver returns [11/3, 13/5, -1], far outside any
floating-point tolerance of [2, 3, -1]. -/
theorem gauss_elimination_example_diverges :
    gauss_elimination
        ⟨3, 3, [[F.fin 2, F.fin 1, F.fin (-1)],
                [F.fin (-3), F.fin (-1), F.fin 2],
                [F.fin (-2), F.fin 1, F.fin 2]]⟩
        [F.fin 8, F.fin (-11), F.fin (-3)]
      = some [F.fin (11/3), F.fin (13/5), F.fin (-1)] ∧
    Array.dotp [F.fin 2, F.fin 1, F.fin (-1)] [F.fin 2, F.fin 3, F.fin (-1)]
      = some (F.fin 8) ∧
    Array.dotp [F.fin (-3), F.fin (-1), F.fin 2] [F.fin 2, F.fin 3, F.fin (-1)]
      = some (F.fin (-11)) ∧
    Array.dotp [F.fin (-2), F.fin 1, F.fin 2] [F.fin 2, F.fin 3, F.fin (-1)]
      = some (F.fin (-3)) := by
  refine ⟨?_, ?_, ?_, ?_⟩ <;> decide

/-- C2: on the row-echelon matrix R = [[1,1,3],[0,1,2]] the code returns
[3, 2], which violates the claimed defining equations (row 0 would require
x[0] = (3 - 1*2)/1 = 1), while [1, 2] satisfies them; the code's row loop
runs upward so its kernel sum only ever reads still-zero entries of x, and
its inner loop also stops one column short of the last coefficient column. -/
theorem back_substitution_example_diverges :
    back_substitution ⟨2, 3, [[F.fin 1, F.fin 1, F.fin 3], [F.fin 0, F.fin 1, F.fin 2]]⟩
      = some [F.fin 3, F.fin 2] ∧
    backSubSpecHolds ⟨2, 3, [[F.fin 1, F.fin 1, F.fin 3], [F.fin 0, F.fin 1, F.fin 2]]⟩
      [F.fin 3, F.fin 2] = false ∧
    backSubSpecHolds ⟨2, 3, [[F.fin 1, F.fin 1, F.fin 3], [F.fin 0, F.fin 1, F.fin 2]]⟩
      [F.fin 1, F.fin 2] = true := by
  refine ⟨?_, ?_, ?_⟩ <;> rfl

/-- C3 counterexample: on the matrix [[1,0],[-1,0]] with pivot column 0, rows
0 and 1 attain the same absolute value 1, and argmax over rows 0..2 returns
row 1, the LAST row attaining the maximum, not the first as claimed. -/
theorem argmax_tie_returns_last :
    argmax 0 2 ⟨2, 2, [[F.fin 1, F.fin 0], [F.fin (-1), F.fin 0]]⟩ 0 fabs = some 1 ∧
    fabs (F.fin 1) = fabs (F.fin (-1)) := by
  exact ⟨rfl, rfl⟩

/-- C4 counterexample: both factors are Matrices returned by the constructor
Matrix::new (a 1×0 and a 1×1 matrix, each satisfying the shape invariant),
their mult passes its only assert (self.rows == other.cols) and runs zero
loop iterations, and the returned Matrix has rows = 1 and cols = 0 but holds
no row Array at all, violating the shape invariant. -/
theorem mult_returns_shape_violation :
    Matrix.new [[]] = some ⟨1, 0, [[]]⟩ ∧
    Matrix.new [[F.fin 0]] = some ⟨1, 1, [[F.fin 0]]⟩ ∧
    WF ⟨1, 0, [[]]⟩ ∧ WF ⟨1, 1, [[F.fin 0]]⟩ ∧
    Matrix.mult ⟨1, 0, [[]]⟩ ⟨1, 1, [[F.fin 0]]⟩ = some ⟨1, 0, []⟩ ∧
    ¬ WF ⟨1, 0, []⟩ := by
  refine ⟨rfl, rfl, by decide, by decide, rfl, by decide⟩

/-- C5 counterexample: for the 1×1 Matrix A = [[NaN]],
identity(1).mult(&A) computes 1.0 * NaN = NaN and returns [[NaN]], but the
PartialEq comparison [[NaN]] == [[NaN]] is false because NaN != NaN, so the
left-identity law fails as stated. -/
theorem identity_mult_nan_not_equal :
    Matrix.mult (Matrix.identity 1) ⟨1, 1, [[F.nan]]⟩ = some ⟨1, 1, [[F.nan]]⟩ ∧
    Matrix.eq ⟨1, 1, [[F.nan]]⟩ ⟨1, 1, [[F.nan]]⟩ = false := by
  exact ⟨rfl, rfl⟩

/-- C7 counterexample: for the 1×1 Matrix A = [[NaN]], transposing twice
reproduces A value-for-value, yet the PartialEq comparison
A.transpose().transpose() == A is false because NaN != NaN. -/
theorem transpose_transpose_nan_not_equal :
    (Matrix.transpose ⟨1, 1, [[F.nan]]⟩).bind Matrix.transpose = some ⟨1, 1, [[F.nan]]⟩ ∧
    Matrix.eq ⟨1, 1, [[F.nan]]⟩ ⟨1, 1, [[F.nan]]⟩ = false := by
  exact ⟨rfl, rfl⟩

/-- C10: Array's PartialEq compares elements with IEEE `!=`, so a == a is
false for the Array [NaN], and in general a == a holds exactly when a has no
NaN element. -/
theorem array_eq_not_reflexive :
    Array.eq [F.nan] [F.nan] = false ∧
    ∀ a : List F, (Array.eq a a = true ↔ Array.noNaN a) := by
  exact ⟨rfl, array_eq_self_iff⟩

lemma gets_some (a : List F) :
    ∀ (n s : Nat), s + n ≤ a.length →
      ∃ l, optList ((List.range' s n).map (fun i => Array.get a i)) = some l ∧
        l.length = n ∧ ∀ i, i < n → l[i]? = a[s + i]? := by
  intro n
  induction n with
  | zero =>
    intro s _
    exact ⟨[], rfl, rfl, fun i hi => absurd hi (by omega)⟩
  | succ n ih =>
    intro s h
    have hs : s < a.length := by omega
    obtain ⟨l, hl, hlen, hget⟩ := ih (s + 1) (by omega)
    refine ⟨a[s] :: l, ?_, by simp [hlen], ?_⟩
    · rw [List.range'_succ, List.map_cons]
      have hgs : Array.get a s = some a[s] := List.getElem?_eq_getElem hs
      rw [hgs]
      show (optList _).map _ = _
      rw [hl]
      rfl
    · intro i hi
      cases i with
      | zero =>
        rw [Nat.add_zero, List.getElem?_cons_zero, List.getElem?_eq_getElem hs]
      | succ i =>
        rw [List.getElem?_cons_succ, hget i (by omega)]
        congr 1
        omega

lemma gets_none (a : List F) (s n : Nat) (hn : 0 < n) (h : a.length < s + n) :
    optList ((List.range' s n).map (fun i => Array.get a i)) = none := by
  apply optList_none
  have hj : ∃ j, j ∈ List.range' s n ∧ a.length ≤ j := by
    by_cases hs : a.length ≤ s
    · exact ⟨s, List.mem_range'_1.mpr ⟨le_refl s, by omega⟩, hs⟩
    · exact ⟨a.length, List.mem_range'_1.mpr ⟨by omega, by omega⟩, le_refl _⟩
  obtain ⟨j, hj1, hj2⟩ := hj
  refine List.mem_map.mpr ⟨j, hj1, ?_⟩
  unfold Array.get
  exact List.getElem?_eq_none hj2

/-- C8: splice panics exactly when `first >= last` or the requested range runs
past the end of the Array; otherwise it returns a fresh copy of exactly the
half-open index range [first, last). -/
theorem splice_spec (a : List F) (first last : Nat) :
    (last ≤ first ∨ a.length < last → Array.splice a first last = none) ∧
    (first < last → last ≤ a.length →
      ∃ l, Array.splice a first last = some l ∧ l.length = last - first ∧
        ∀ i, i < last - first → l[i]? = a[first + i]?) := by
  constructor
  · intro h
    unfold Array.splice
    rcases h with h | h
    · rw [if_neg (by omega)]
    · by_cases h1 : first < last
      · rw [if_pos h1]
        exact gets_none a first (last - first) (by omega) (by omega)
      · rw [if_neg h1]
  · intro h1 h2
    unfold Array.splice
    rw [if_pos h1]
    have ⟨l, hl, hlen, hget⟩ := gets_some a (last - first) first (by omega)
    exact ⟨l, hl, hlen, hget⟩

/-- C8 witness: on the Array [1,2,3,4,5], splice(1,3) succeeds and copies
exactly indices 1 and 2, while splice(2,2) and splice(3,9) panic. -/
theorem splice_spec_witness :
    (∃ l, Array.splice [F.fin 1, F.fin 2, F.fin 3, F.fin 4, F.fin 5] 1 3 = some l ∧
        l.length = 2 ∧ ∀ i, i < 2 →
          l[i]? = [F.fin 1, F.fin 2, F.fin 3, F.fin 4, F.fin 5][1 + i]?) ∧
    Array.splice [F.fin 1, F.fin 2, F.fin 3, F.fin 4, F.fin 5] 2 2 = none ∧
    Array.splice [F.fin 1, F.fin 2, F.fin 3, F.fin 4, F.fin 5] 3 9 = none := by
  refine ⟨?_, ?_, ?_⟩
  · exact (splice_spec [F.fin 1, F.fin 2, F.fin 3, F.fin 4, F.fin 5] 1 3).2
      (by decide) (by decide)
  · exact (splice_spec [F.fin 1, F.fin 2, F.fin 3, F.fin 4, F.fin 5] 2 2).1
      (Or.inl (by decide))
  · exact (splice_spec [F.fin 1, F.fin 2, F.fin 3, F.fin 4, F.fin 5] 3 9).1
      (Or.inr (by decide))

lemma list_set_self {α : Type} :
    ∀ (l : List α) (i : Nat) (x : α), l[i]? = some x → l.set i x = l := by
  intro l
  induction l with
  | nil => intro i x h; simp at h
  | cons y ys ih =>
    intro i x h
    cases i with
    | zero =>
      rw [List.getElem?_cons_zero, Option.some_inj] at h
      rw [List.set_cons_zero, h]
    | succ i =>
      rw [List.getElem?_cons_succ] at h
      rw [List.set_cons_succ, ih i x h]

lemma matrix_set_eq (m : Matrix) (v : F) (i j : Nat) (r : List F)
    (hi : i < m.rows) (hr : m.arrays[i]? = some r) (hj : j < r.length) :
    Matrix.set m v i j = some ⟨m.rows, m.cols, m.arrays.set i (r.set j v)⟩ := by
  unfold Matrix.set Matrix.rowAt Array.set
  rw [if_pos hi, hr]
  show (if j < r.length then some (r.set j v) else none).map _ = _
  rw [if_pos hj]
  rfl

/-- Sequence of in-place writes `acc[e + offset] := arr[e]` used to describe
the effect of Matrix::set_row. -/
def writeSeq (r arr : List F) (offset : Nat) (es : List Nat) : List F :=
  es.foldl (fun acc e => acc.set (e + offset) (arr.getD e (F.fin 0))) r

lemma set_row_fold (arr : List F) (row offset : Nat) :
    ∀ (es : List Nat) (m : Matrix) (r : List F),
      row < m.rows → m.arrays[row]? = some r →
      (∀ e ∈ es, e < arr.length) → (∀ e ∈ es, e + offset < r.length) →
      es.foldl
        (fun acc elem => acc.bind (fun mm =>
          (Array.get arr elem).bind (fun v => Matrix.set mm v row (elem + offset))))
        (some m)
      = some ⟨m.rows, m.cols, m.arrays.set row (writeSeq r arr offset es)⟩ := by
  intro es
  induction es with
  | nil =>
    intro m r h1 h2 _ _
    show some m = some ⟨m.rows, m.cols, m.arrays.set row r⟩
    rw [list_set_self m.arrays row r h2]
  | cons e es' ih =>
    intro m r h1 h2 hlen hoff
    have he : e < arr.length := hlen e (List.mem_cons_self e es')
    have heo : e + offset < r.length := hoff e (List.mem_cons_self e es')
    have hget : Array.get arr e = some (arr.getD e (F.fin 0)) := by
      unfold Array.get
      rw [List.getElem?_eq_getElem he, List.getD_eq_getElem arr (F.fin 0) he]
    rw [List.foldl_cons]
    have hstep :
        (some m).bind (fun mm =>
          (Array.get arr e).bind (fun v => Matrix.set mm v row (e + offset)))
        = some ⟨m.rows, m.cols, m.arrays.set row (r.set (e + offset) (arr.getD e (F.fin 0)))⟩ := by
      show (Array.get arr e).bind (fun v => Matrix.set m v row (e + offset)) = _
      rw [hget]
      show Matrix.set m (arr.getD e (F.fin 0)) row (e + offset) = _
      exact matrix_set_eq m _ row (e + offset) r h1 h2 heo
    rw [hstep]
    have hnext :
        (⟨m.rows, m.cols,
          m.arrays.set row (r.set (e + offset) (arr.getD e (F.fin 0)))⟩ :
            Matrix).arrays[row]?
        = some (r.set (e + offset) (arr.getD e (F.fin 0))) := by
      show (m.arrays.set row _)[row]? = _
      rw [List.getElem?_set_self', h2]
      rfl
    have := ih ⟨m.rows, m.cols, m.arrays.set row (r.set (e + offset) (arr.getD e (F.fin 0)))⟩
      (r.set (e + offset) (arr.getD e (F.fin 0))) h1 hnext
      (fun x hx => hlen x (List.mem_cons_of_mem e hx))
      (fun x hx => by
        rw [List.length_set]
        exact hoff x (List.mem_cons_of_mem e hx))
    rw [this]
    simp only [Option.some_inj, List.set_set]
    rfl

lemma writeSeq_range (arr r : List F) (offset : Nat) :
    ∀ n, n ≤ arr.length → offset + n ≤ r.length →
      (writeSeq r arr offset (List.range n)).length = r.length ∧
      ∀ j, (writeSeq r arr offset (List.range n))[j]? =
        if offset ≤ j ∧ j < offset + n then arr[j - offset]? else r[j]? := by
  intro n
  induction n with
  | zero =>
    intro _ _
    refine ⟨rfl, fun j => ?_⟩
    rw [if_neg (by omega)]
    rfl
  | succ n ih =>
    intro hn hoff
    obtain ⟨ihlen, ihget⟩ := ih (by omega) (by omega)
    have hstep : writeSeq r arr offset (List.range (n + 1))
        = (writeSeq r arr offset (List.range n)).set (n + offset) (arr.getD n (F.fin 0)) := by
      unfold writeSeq
      rw [List.range_succ, List.foldl_append, List.foldl_cons, List.foldl_nil]
    rw [hstep]
    constructor
    · rw [List.length_set, ihlen]
    · intro j
      by_cases hj : j = n + offset
      · subst hj
        rw [List.getElem?_set_self', ihget, if_neg (by omega), if_pos (by omega)]
        have h1 : r[n + offset]? = some r[n + offset] :=
          List.getElem?_eq_getElem (by omega)
        rw [h1]
        have h2 : n + offset - offset = n := by omega
        rw [h2]
        show some (arr.getD n (F.fin 0)) = arr[n]?
        rw [List.getD_eq_getElem arr (F.fin 0) (by omega : n < arr.length),
          List.getElem?_eq_getElem (by omega : n < arr.length)]
      · rw [List.getElem?_set_ne (by omega), ihget]
        by_cases hc : offset ≤ j ∧ j < offset + n
        · rw [if_pos hc, if_pos (by omega)]
        · rw [if_neg hc, if_neg (by omega)]

/-- C9: for an Array no longer than the row, set_row writes arr's elements
right-aligned into columns (cols - arr.len())..cols of the chosen row, and
every other cell of the Matrix (all other rows, and the leading columns of
the chosen row) keeps its previous value. -/
theorem set_row_spec (m : Matrix) (arr : List F) (row : Nat)
    (hWF : WF m) (hrow : row < m.rows) (hlen : arr.length ≤ m.cols) :
    ∃ m' r r',
      m.arrays[row]? = some r ∧
      Matrix.set_row m arr row = some m' ∧
      m'.rows = m.rows ∧ m'.cols = m.cols ∧
      m'.arrays = m.arrays.set row r' ∧
      r'.length = m.cols ∧
      (∀ i, i ≠ row → m'.arrays[i]? = m.arrays[i]?) ∧
      (∀ j, j < m.cols - arr.length → r'[j]? = r[j]?) ∧
      (∀ j, m.cols - arr.length ≤ j → j < m.cols →
        r'[j]? = arr[j - (m.cols - arr.length)]?) := by
  obtain ⟨hWF1, hWF2⟩ := hWF
  have hrow' : row < m.arrays.length := by omega
  have hr : m.arrays[row]? = some m.arrays[row] := List.getElem?_eq_getElem hrow'
  set r := m.arrays[row] with hrdef
  have hrlen : r.length = m.cols := hWF2 r (List.getElem_mem hrow')
  have hoffv : (if arr.length < m.cols then m.cols - arr.length else 0)
      = m.cols - arr.length := by
    by_cases hc : arr.length < m.cols
    · rw [if_pos hc]
    · rw [if_neg hc]
      omega
  have hfold := set_row_fold arr row (m.cols - arr.length) (List.range arr.length) m r
    hrow hr
    (fun e he => List.mem_range.mp he)
    (fun e he => by
      have := List.mem_range.mp he
      omega)
  have hsr : Matrix.set_row m arr row
      = some ⟨m.rows, m.cols,
          m.arrays.set row (writeSeq r arr (m.cols - arr.length) (List.range arr.length))⟩ := by
    unfold Matrix.set_row
    rw [hoffv]
    exact hfold
  obtain ⟨hwlen, hwget⟩ := writeSeq_range arr r (m.cols - arr.length) arr.length
    (le_refl _) (by omega)
  refine ⟨_, r, writeSeq r arr (m.cols - arr.length) (List.range arr.length),
    hr, hsr, rfl, rfl, rfl, by rw [hwlen, hrlen], ?_, ?_, ?_⟩
  · intro i hi
    show (m.arrays.set row _)[i]? = _
    rw [List.getElem?_set_ne (by omega)]
  · intro j hj
    rw [hwget j, if_neg (by omega)]
  · intro j hj1 hj2
    rw [hwget j, if_pos (by omega)]

/-- C9 witness: for the 2×3 matrix [[1,2,3],[4,5,6]] and arr = [7,8] written
into row 0, the offset is 1: row 0 becomes [1,7,8] and row 1 is untouched. -/
theorem set_row_spec_witness :
    ∃ m' r r',
      (⟨2, 3, [[F.fin 1, F.fin 2, F.fin 3], [F.fin 4, F.fin 5, F.fin 6]]⟩ :
        Matrix).arrays[0]? = some r ∧
      Matrix.set_row ⟨2, 3, [[F.fin 1, F.fin 2, F.fin 3], [F.fin 4, F.fin 5, F.fin 6]]⟩
        [F.fin 7, F.fin 8] 0 = some m' ∧
      m'.rows = 2 ∧ m'.cols = 3 ∧
      m'.arrays = [[F.fin 1, F.fin 2, F.fin 3], [F.fin 4, F.fin 5, F.fin 6]].set 0 r' ∧
      r'.length = 3 ∧
      (∀ i, i ≠ 0 → m'.arrays[i]? =
        [[F.fin 1, F.fin 2, F.fin 3], [F.fin 4, F.fin 5, F.fin 6]][i]?) ∧
      (∀ j, j < 1 → r'[j]? = r[j]?) ∧
      (∀ j, 1 ≤ j → j < 3 → r'[j]? = [F.fin 7, F.fin 8][j - 1]?) := by
  exact set_row_spec
    ⟨2, 3, [[F.fin 1, F.fin 2, F.fin 3], [F.fin 4, F.fin 5, F.fin 6]]⟩
    [F.fin 7, F.fin 8] 0 (by decide) (by decide) (by decide)

lemma argmaxGo_spec (a : Matrix) (k : Nat) (vals : Nat → ℚ) :
    ∀ (l : List Nat), l.Pairwise (· < ·) →
      (∀ i ∈ l, Matrix.get a i k = some (F.fin (vals i))) →
      ∀ (b : Nat) (c : ℚ),
        ∃ r1 r2, argmaxGo a k fabs l (b, F.fin c) = some (r1, F.fin r2) ∧
          c ≤ r2 ∧
          (∀ i ∈ l, |vals i| ≤ r2) ∧
          (∀ i ∈ l, r1 < i → |vals i| < r2) ∧
          ((r1 = b ∧ r2 = c) ∨ (r1 ∈ l ∧ r2 = |vals r1|)) := by
  intro l
  induction l with
  | nil =>
    intro _ _ b c
    exact ⟨b, c, rfl, le_refl c, fun i hi => absurd hi (List.not_mem_nil i),
      fun i hi => absurd hi (List.not_mem_nil i), Or.inl ⟨rfl, rfl⟩⟩
  | cons i rest ih =>
    intro hpw hv b c
    have hvi : Matrix.get a i k = some (F.fin (vals i)) :=
      hv i (List.mem_cons_self i rest)
    have hpw' : rest.Pairwise (· < ·) := (List.pairwise_cons.mp hpw).2
    have hlt : ∀ x ∈ rest, i < x := (List.pairwise_cons.mp hpw).1
    have hv' : ∀ x ∈ rest, Matrix.get a x k = some (F.fin (vals x)) :=
      fun x hx => hv x (List.mem_cons_of_mem i hx)
    have hgo : argmaxGo a k fabs (i :: rest) (b, F.fin c)
        = argmaxGo a k fabs rest
            (if F.le (F.fin c) (fabs (F.fin (vals i))) then (i, fabs (F.fin (vals i)))
             else (b, F.fin c)) := by
      show (Matrix.get a i k).bind _ = _
      rw [hvi]
      rfl
    rw [hgo, fabs_fin]
    by_cases hc : c ≤ |vals i|
    · rw [if_pos (by exact decide_eq_true hc)]
      obtain ⟨r1, r2, hrec, hle, hmax, hstrict, hend⟩ := ih hpw' hv' i |vals i|
      refine ⟨r1, r2, hrec, le_trans hc hle, ?_, ?_, ?_⟩
      · intro x hx
        rcases List.mem_cons.mp hx with rfl | hx
        · exact hle
        · exact hmax x hx
      · intro x hx hgt
        rcases List.mem_cons.mp hx with rfl | hx
        · rcases hend with ⟨rfl, _⟩ | ⟨hr1, _⟩
          · omega
          · exact absurd hgt (by have := hlt r1 hr1; omega)
        · exact hstrict x hx hgt
      · rcases hend with ⟨h1, hr2⟩ | ⟨hr1, hr2⟩
        · subst h1
          exact Or.inr ⟨List.mem_cons_self _ rest, hr2⟩
        · exact Or.inr ⟨List.mem_cons_of_mem i hr1, hr2⟩
    · have hle : F.le (F.fin c) (F.fin |vals i|) = false := decide_eq_false hc
      rw [hle, if_neg (by simp)]
      obtain ⟨r1, r2, hrec, hle, hmax, hstrict, hend⟩ := ih hpw' hv' b c
      refine ⟨r1, r2, hrec, hle, ?_, ?_, ?_⟩
      · intro x hx
        rcases List.mem_cons.mp hx with rfl | hx
        · have : |vals x| < c := not_le.mp hc
          linarith
        · exact hmax x hx
      · intro x hx hgt
        rcases List.mem_cons.mp hx with rfl | hx
        · have : |vals x| < c := not_le.mp hc
          linarith
        · exact hstrict x hx hgt
      · rcases hend with h | h
        · exact Or.inl h
        · exact Or.inr ⟨List.mem_cons_of_mem i h.1, h.2⟩

/-- C3 (amended): over rows h..m whose pivot-column entries are finite,
argmax returns an in-range row index whose absolute value in column k is
maximal; when several rows attain the maximum, the LAST such row (the
largest row index) is chosen, because the update condition is
`max_out <= f(a[i][k])`. -/
theorem argmax_max_last (a : Matrix) (h m k : Nat) (vals : Nat → ℚ)
    (hm : h < m)
    (hv : ∀ i, h ≤ i → i < m → Matrix.get a i k = some (F.fin (vals i))) :
    ∃ imax, argmax h m a k fabs = some imax ∧ h ≤ imax ∧ imax < m ∧
      (∀ j, h ≤ j → j < m → |vals j| ≤ |vals imax|) ∧
      (∀ j, imax < j → j < m → |vals j| < |vals imax|) := by
  have hmem : ∀ i, i ∈ List.range' h (m - h) ↔ (h ≤ i ∧ i < m) := by
    intro i
    rw [List.mem_range'_1]
    omega
  have hvh : Matrix.get a h k = some (F.fin (vals h)) := hv h (le_refl h) hm
  obtain ⟨r1, r2, hrec, hle, hmax, hstrict, hend⟩ :=
    argmaxGo_spec a k vals (List.range' h (m - h))
      (List.pairwise_lt_range' h (m - h) 1 (by omega))
      (fun i hi => hv i ((hmem i).mp hi).1 ((hmem i).mp hi).2)
      h |vals h|
  have hrange : h ≤ r1 ∧ r1 < m := by
    rcases hend with ⟨rfl, _⟩ | ⟨hr1, _⟩
    · exact ⟨le_refl _, hm⟩
    · exact (hmem r1).mp hr1
  have hr2 : r2 = |vals r1| := by
    rcases hend with ⟨rfl, h2⟩ | ⟨_, h2⟩ <;> exact h2
  refine ⟨r1, ?_, hrange.1, hrange.2, ?_, ?_⟩
  · unfold argmax
    rw [hvh]
    show (argmaxGo a k fabs _ (h, fabs (F.fin (vals h)))).map Prod.fst = _
    rw [fabs_fin, hrec]
    rfl
  · intro j hj1 hj2
    rw [← hr2]
    by_cases hjh : j = h
    · subst hjh
      exact hle
    · exact hmax j ((hmem j).mpr ⟨hj1, hj2⟩)
  · intro j hj1 hj2
    rw [← hr2]
    exact hstrict j ((hmem j).mpr ⟨by omega, hj2⟩) hj1

/-- C3 witness: on the matrix [[3,0],[-1,0]] with pivot column 0 over rows
0..2, argmax returns row 0, whose absolute value 3 dominates. -/
theorem argmax_max_last_witness :
    ∃ imax, argmax 0 2 ⟨2, 2, [[F.fin 3, F.fin 0], [F.fin (-1), F.fin 0]]⟩ 0 fabs
        = some imax ∧ 0 ≤ imax ∧ imax < 2 ∧
      (∀ j, 0 ≤ j → j < 2 →
        |(fun i => if i = 0 then (3 : ℚ) else -1) j|
          ≤ |(fun i => if i = 0 then (3 : ℚ) else -1) imax|) ∧
      (∀ j, imax < j → j < 2 →
        |(fun i => if i = 0 then (3 : ℚ) else -1) j|
          < |(fun i => if i = 0 then (3 : ℚ) else -1) imax|) := by
  exact argmax_max_last ⟨2, 2, [[F.fin 3, F.fin 0], [F.fin (-1), F.fin 0]]⟩ 0 2 0
    (fun i => if i = 0 then (3 : ℚ) else -1) (by omega)
    (fun i h1 h2 => by
      interval_cases i
      · rfl
      · rfl)

lemma optList_range_inv {α : Type} (n : Nat) (f : Nat → Option α) (d : List α)
    (h : optList ((List.range n).map f) = some d) :
    d.length = n ∧ ∀ i, i < n → f i = d[i]? := by
  rw [optList_eq_some] at h
  have hlen : n = d.length := by
    have := congrArg List.length h
    simpa using this
  refine ⟨hlen.symm, fun i hi => ?_⟩
  have hcg := congrArg (fun l => l[i]?) h
  simp only [List.getElem?_map] at hcg
  rw [List.getElem?_range hi,
    List.getElem?_eq_getElem (show i < d.length by omega)] at hcg
  simp only [Option.map_some'] at hcg
  rw [List.getElem?_eq_getElem (show i < d.length by omega)]
  exact Option.some_inj.mp hcg

lemma rowAt_some (m : Matrix) (i : Nat) (r : List F)
    (h : m.rowAt i = some r) : m.arrays[i]? = some r ∧ i < m.rows := by
  unfold Matrix.rowAt at h
  by_cases hi : i < m.rows
  · rw [if_pos hi] at h
    exact ⟨h, hi⟩
  · rw [if_neg hi] at h
    cases h

lemma zip_op_some (g : F → F → F) (r1 r2 rr : List F)
    (h : (if r1.length = r2.length then some (List.zipWith g r1 r2) else none) = some rr) :
    rr.length = r1.length := by
  by_cases hc : r1.length = r2.length
  · rw [if_pos hc, Option.some_inj] at h
    rw [← h, List.length_zipWith, hc, Nat.min_self]
  · rw [if_neg hc] at h
    cases h

lemma rowwise_wf (op : List F → List F → Option (List F))
    (hop : ∀ r1 r2 rr, op r1 r2 = some rr → rr.length = r1.length)
    (m1 m2 : Matrix) (hWF1 : WF m1) (d : List (List F))
    (h : optList ((List.range m1.rows).map (fun i =>
      (m1.rowAt i).bind (fun r1 => (m2.rowAt i).bind (fun r2 => op r1 r2)))) = some d) :
    WF ⟨m1.rows, m1.cols, d⟩ := by
  obtain ⟨hlen, hget⟩ := optList_range_inv _ _ _ h
  refine ⟨hlen, ?_⟩
  intro r hr
  have hr' : r ∈ d := hr
  obtain ⟨i, hi, hdi⟩ := List.getElem_of_mem hr'
  have hfi := hget i (by rw [← hlen]; exact hi)
  rw [List.getElem?_eq_getElem hi, hdi] at hfi
  cases hr1 : m1.rowAt i with
  | none => rw [hr1] at hfi; cases hfi
  | some r1 =>
    rw [hr1] at hfi
    have hfi2 : (m2.rowAt i).bind (fun r2 => op r1 r2) = some r := hfi
    cases hr2 : m2.rowAt i with
    | none => rw [hr2] at hfi2; cases hfi2
    | some r2 =>
      rw [hr2] at hfi2
      have hfi3 : op r1 r2 = some r := hfi2
      have hrlen := hop r1 r2 r hfi3
      have hr1mem : r1 ∈ m1.arrays := by
        obtain ⟨hr1a, _⟩ := rowAt_some m1 i r1 hr1
        exact List.getElem?_mem hr1a
      show r.length = m1.cols
      rw [hrlen]
      exact hWF1.2 r1 hr1mem

/-- C4 (amended): every Matrix returned by new, of, zeros, ones, identity,
plus, minus, scalar, elem_mult or transpose satisfies the shape invariant
(for the row-wise binary/unary operations, given shape-invariant inputs);
mult's result satisfies it provided self.cols == other.rows, the only case
its two index views make coherent, while the degenerate cases
self.cols = 0 ≠ other.rows and other.rows = 0 ≠ self.cols return a Matrix
whose rows/cols fields disagree with its data. -/
theorem shape_invariant_ops :
    (∀ s A, Matrix.new s = some A → WF A) ∧
    (∀ v r c, WF (Matrix.of v r c)) ∧
    (∀ r c, WF (Matrix.zeros r c)) ∧
    (∀ r c, WF (Matrix.ones r c)) ∧
    (∀ n, WF (Matrix.identity n)) ∧
    (∀ m1 m2 A, WF m1 → Matrix.plus m1 m2 = some A → WF A) ∧
    (∀ m1 m2 A, WF m1 → Matrix.minus m1 m2 = some A → WF A) ∧
    (∀ m1 m2 A, WF m1 → Matrix.elem_mult m1 m2 = some A → WF A) ∧
    (∀ m s A, WF m → Matrix.scalar m s = some A → WF A) ∧
    (∀ m A, Matrix.transpose m = some A → WF A) ∧
    (∀ m1 m2 A, m1.cols = m2.rows → Matrix.mult m1 m2 = some A → WF A) := by
  have hof : ∀ (v : F) (r c : Nat), WF (Matrix.of v r c) := by
    intro v r c
    constructor
    · exact List.length_replicate r _
    · intro row hrow
      rw [List.eq_of_mem_replicate hrow]
      exact List.length_replicate c v
  have hbin : ∀ (g : F → F → F) (m1 m2 : Matrix), WF m1 →
      ∀ A, (if m1.cols = m2.cols ∧ m1.rows = m2.rows then
        (optList ((List.range m1.rows).map (fun i =>
          (m1.rowAt i).bind (fun r1 => (m2.rowAt i).bind (fun r2 =>
            if r1.length = r2.length then some (List.zipWith g r1 r2) else none))))).map
          (fun d => (⟨m1.rows, m1.cols, d⟩ : Matrix))
      else none) = some A → WF A := by
    intro g m1 m2 hWF1 A h
    by_cases hc : m1.cols = m2.cols ∧ m1.rows = m2.rows
    · rw [if_pos hc] at h
      obtain ⟨d, hd, hA⟩ := Option.map_eq_some'.mp h
      rw [← hA]
      exact rowwise_wf _ (zip_op_some g) m1 m2 hWF1 d hd
    · rw [if_neg hc] at h
      cases h
  refine ⟨?_, hof, fun r c => hof _ r c, fun r c => hof _ r c, ?_, ?_, ?_, ?_, ?_, ?_, ?_⟩
  · intro s A h
    cases s with
    | nil => cases h
    | cons r0 rest =>
      have h' : (if ((r0 :: rest).all fun r => decide (r.length = r0.length)) = true then
          some (⟨(r0 :: rest).length, r0.length, r0 :: rest⟩ : Matrix)
        else none) = some A := h
      by_cases hall : ((r0 :: rest).all fun r => decide (r.length = r0.length)) = true
      · rw [if_pos hall, Option.some_inj] at h'
        rw [← h']
        refine ⟨rfl, ?_⟩
        intro r hr
        exact of_decide_eq_true (List.all_eq_true.mp hall r hr)
      · rw [if_neg hall] at h'
        cases h'
  · intro n
    constructor
    · simp [Matrix.identity]
    · intro r hr
      simp only [Matrix.identity] at hr
      obtain ⟨i, _, hi⟩ := List.mem_map.mp hr
      rw [← hi, List.length_set]
      exact List.length_replicate n _
  · exact fun m1 m2 A hWF1 h => hbin F.add m1 m2 hWF1 A h
  · exact fun m1 m2 A hWF1 h => hbin F.sub m1 m2 hWF1 A h
  · exact fun m1 m2 A hWF1 h => hbin F.mul m1 m2 hWF1 A h
  · intro m s A hWF h
    unfold Matrix.scalar at h
    obtain ⟨d, hd, hA⟩ := Option.map_eq_some'.mp h
    rw [← hA]
    obtain ⟨hlen, hget⟩ := optList_range_inv _ _ _ hd
    refine ⟨hlen, ?_⟩
    intro r hr
    have hr' : r ∈ d := hr
    obtain ⟨i, hi, hdi⟩ := List.getElem_of_mem hr'
    have hfi := hget i (by rw [← hlen]; exact hi)
    rw [List.getElem?_eq_getElem hi, hdi] at hfi
    cases hr1 : m.rowAt i with
    | none => rw [hr1] at hfi; cases hfi
    | some r1 =>
      rw [hr1] at hfi
      have hfi2 : some (Array.scalar r1 s) = some r := hfi
      rw [Option.some_inj] at hfi2
      show r.length = m.cols
      rw [← hfi2]
      show (r1.map _).length = m.cols
      rw [List.length_map]
      exact hWF.2 r1 (List.getElem?_mem (rowAt_some m i r1 hr1).1)
  · intro m A h
    unfold Matrix.transpose at h
    obtain ⟨d, hd, hA⟩ := Option.map_eq_some'.mp h
    rw [← hA]
    obtain ⟨hlen, hget⟩ := optList_range_inv _ _ _ hd
    refine ⟨hlen, ?_⟩
    intro r hr
    have hr' : r ∈ d := hr
    obtain ⟨i, hi, hdi⟩ := List.getElem_of_mem hr'
    have hfi := hget i (by rw [← hlen]; exact hi)
    rw [List.getElem?_eq_getElem hi, hdi] at hfi
    obtain ⟨hrl, _⟩ := optList_range_inv _ _ _ hfi.symm.symm
    exact hrl
  · intro m1 m2 A hcr h
    unfold Matrix.mult at h
    by_cases hpre : m1.rows = m2.cols
    · rw [if_pos hpre] at h
      cases ht : m1.transpose with
      | none => rw [ht] at h; cases h
      | some t =>
        rw [ht] at h
        have h2 : (optList ((List.range m1.cols).map (fun i =>
            optList ((List.range m2.rows).map (fun j =>
              (t.rowAt j).bind (fun rj =>
                (m2.rowAt i).bind (fun ri => Array.dotp rj ri))))))).map
            (fun d => (⟨m2.rows, m1.cols, d⟩ : Matrix)) = some A := h
        obtain ⟨d, hd, hA⟩ := Option.map_eq_some'.mp h2
        rw [← hA]
        obtain ⟨hlen, hget⟩ := optList_range_inv _ _ _ hd
        refine ⟨by rw [hlen, hcr], ?_⟩
        intro r hr
        have hr' : r ∈ d := hr
        obtain ⟨i, hi, hdi⟩ := List.getElem_of_mem hr'
        have hfi := hget i (by rw [← hlen]; exact hi)
        rw [List.getElem?_eq_getElem hi, hdi] at hfi
        obtain ⟨hrl, _⟩ := optList_range_inv _ _ _ hfi
        show r.length = m1.cols
        rw [hrl, hcr]
    · rw [if_neg hpre] at h
      cases h

/-- C4 witness: the amended invariant applied at concrete inputs: the 1×1
matrix built by new, and the product of [[1,2],[3,4]] with itself (a case
with self.cols == other.rows), are both shape-invariant. -/
theorem shape_invariant_ops_witness :
    WF ⟨1, 1, [[F.fin 5]]⟩ ∧
    WF ⟨2, 2, [[F.fin 7, F.fin 10], [F.fin 15, F.fin 22]]⟩ := by
  constructor
  · exact shape_invariant_ops.1 [[F.fin 5]] ⟨1, 1, [[F.fin 5]]⟩ (by decide)
  · exact shape_invariant_ops.2.2.2.2.2.2.2.2.2.2
      ⟨2, 2, [[F.fin 1, F.fin 2], [F.fin 3, F.fin 4]]⟩
      ⟨2, 2, [[F.fin 1, F.fin 2], [F.fin 3, F.fin 4]]⟩
      ⟨2, 2, [[F.fin 7, F.fin 10], [F.fin 15, F.fin 22]]⟩
      (by decide) (by decide)

/-- Entry of a matrix read with defaults, used to state what transpose
builds. -/
def entryD (m : Matrix) (i j : Nat) : F := (m.arrays.getD i []).getD j (F.fin 0)

/-- The matrix that Matrix::transpose builds from a well-formed input. -/
def tMat (m : Matrix) : Matrix :=
  ⟨m.cols, m.rows,
    (List.range m.cols).map (fun i => (List.range m.rows).map (fun j => entryD m j i))⟩

lemma getD_map_range {α : Type} (f : Nat → α) (n j : Nat) (h : j < n) (d : α) :
    ((List.range n).map f).getD j d = f j := by
  rw [List.getD_eq_getElem _ _ (by simpa using h), List.getElem_map, List.getElem_range]

lemma rowAt_of_wf (m : Matrix) (hWF : WF m) (j : Nat) (hj : j < m.rows) :
    m.rowAt j = some (m.arrays.getD j []) := by
  have hj' : j < m.arrays.length := by rw [hWF.1]; exact hj
  unfold Matrix.rowAt
  rw [if_pos hj, List.getElem?_eq_getElem hj', List.getD_eq_getElem m.arrays [] hj']

lemma row_length_of_wf (m : Matrix) (hWF : WF m) (j : Nat) (hj : j < m.rows) :
    (m.arrays.getD j []).length = m.cols := by
  have hj' : j < m.arrays.length := by rw [hWF.1]; exact hj
  rw [List.getD_eq_getElem m.arrays [] hj']
  exact hWF.2 _ (List.getElem_mem hj')

lemma transpose_eq (m : Matrix) (hWF : WF m) :
    Matrix.transpose m = some (tMat m) := by
  unfold Matrix.transpose
  have hinner : ∀ i ∈ List.range m.cols,
      optList ((List.range m.rows).map (fun j =>
        (m.rowAt j).bind (fun r => Array.get r i)))
      = some ((List.range m.rows).map (fun j => entryD m j i)) := by
    intro i hi
    apply optList_map_some
    intro j hj
    have hj' : j < m.rows := List.mem_range.mp hj
    rw [rowAt_of_wf m hWF j hj']
    show Array.get (m.arrays.getD j []) i = some (entryD m j i)
    have hi' : i < (m.arrays.getD j []).length := by
      rw [row_length_of_wf m hWF j hj']
      exact List.mem_range.mp hi
    unfold Array.get entryD
    rw [List.getElem?_eq_getElem hi', List.getD_eq_getElem _ _ hi']
  rw [optList_map_some _ _ _ hinner]
  rfl

lemma tMat_wf (m : Matrix) : WF (tMat m) := by
  constructor
  · simp [tMat]
  · intro r hr
    simp only [tMat] at hr
    obtain ⟨i, _, hi⟩ := List.mem_map.mp hr
    rw [← hi]
    simp [tMat]

lemma entryD_tMat (m : Matrix) (i j : Nat) (hi : i < m.rows) (hj : j < m.cols) :
    entryD (tMat m) j i = entryD m i j := by
  unfold entryD tMat
  rw [getD_map_range _ m.cols j hj]
  rw [getD_map_range _ m.rows i hi]
  rfl

lemma tMat_tMat (m : Matrix) (hWF : WF m) : tMat (tMat m) = m := by
  have harr : (List.range m.rows).map (fun i =>
      (List.range m.cols).map (fun j => entryD (tMat m) j i)) = m.arrays := by
    apply List.ext_getElem
    · rw [List.length_map, List.length_range, hWF.1]
    · intro i h1 h2
      rw [List.getElem_map, List.getElem_range]
      have hi : i < m.rows := by simpa using h1
      apply List.ext_getElem
      · rw [List.length_map, List.length_range]
        exact (hWF.2 _ (List.getElem_mem h2)).symm
      · intro k k1 k2
        rw [List.getElem_map, List.getElem_range]
        have hk : k < m.cols := by simpa using k1
        rw [entryD_tMat m i k hi hk]
        unfold entryD
        rw [List.getD_eq_getElem m.arrays [] h2, List.getD_eq_getElem _ _ k2]
  show (⟨m.rows, m.cols, (List.range m.rows).map (fun i =>
      (List.range m.cols).map (fun j => entryD (tMat m) j i))⟩ : Matrix) = m
  rw [harr]

lemma matrix_eq_self (m : Matrix) (hWF : WF m) (h : Matrix.noNaN m) :
    Matrix.eq m m = true := by
  unfold Matrix.eq
  simp only [Bool.and_eq_true, decide_eq_true_eq]
  refine ⟨⟨trivial, trivial⟩, ?_⟩
  rw [List.all_eq_true]
  intro i hi
  have hilt : i < m.arrays.length := by rw [hWF.1]; exact List.mem_range.mp hi
  rw [List.getElem?_eq_getElem hilt]
  show Array.eq m.arrays[i] m.arrays[i] = true
  exact (array_eq_self_iff _).mpr (h _ (List.getElem_mem hilt))

/-- C7 (amended): for every shape-invariant Matrix A, transposing twice
rebuilds A exactly (same shape fields, same element values); the PartialEq
comparison A.transpose().transpose() == A is additionally true whenever A
contains no NaN (it is false for any A with a NaN entry). -/
theorem transpose_transpose (A : Matrix) (hWF : WF A) :
    ∃ B C, Matrix.transpose A = some B ∧ Matrix.transpose B = some C ∧ C = A ∧
      (Matrix.noNaN A → Matrix.eq C A = true) := by
  refine ⟨tMat A, tMat (tMat A), transpose_eq A hWF, transpose_eq _ (tMat_wf A),
    tMat_tMat A hWF, ?_⟩
  intro h
  rw [tMat_tMat A hWF]
  exact matrix_eq_self A hWF h

/-- C7 witness: the double transpose of [[1,2],[3,4]] is itself, and the
PartialEq comparison is true. -/
theorem transpose_transpose_witness :
    ∃ B C, Matrix.transpose ⟨2, 2, [[F.fin 1, F.fin 2], [F.fin 3, F.fin 4]]⟩ = some B ∧
      Matrix.transpose B = some C ∧
      C = ⟨2, 2, [[F.fin 1, F.fin 2], [F.fin 3, F.fin 4]]⟩ ∧
      (Matrix.noNaN ⟨2, 2, [[F.fin 1, F.fin 2], [F.fin 3, F.fin 4]]⟩ →
        Matrix.eq C ⟨2, 2, [[F.fin 1, F.fin 2], [F.fin 3, F.fin 4]]⟩ = true) := by
  exact transpose_transpose ⟨2, 2, [[F.fin 1, F.fin 2], [F.fin 3, F.fin 4]]⟩ (by decide)

lemma map_getD_range {α : Type} (l : List α) (d : α) :
    (List.range l.length).map (fun j => l.getD j d) = l := by
  apply List.ext_getElem
  · simp
  · intro i h1 h2
    rw [List.getElem_map, List.getElem_range, List.getD_eq_getElem l d h2]

lemma identity_wf (n : Nat) : WF (Matrix.identity n) := by
  constructor
  · simp [Matrix.identity]
  · intro r hr
    simp only [Matrix.identity] at hr
    obtain ⟨i, _, hi⟩ := List.mem_map.mp hr
    rw [← hi, List.length_set]
    exact List.length_replicate n _

lemma basis_getD (n j i : Nat) (hi : i < n) :
    ((Array.zeros n).set j (F.fin 1)).getD i (F.fin 0)
      = if j = i then F.fin 1 else F.fin 0 := by
  have hlen : ((Array.zeros n).set j (F.fin 1)).length = n := by
    rw [List.length_set]
    exact List.length_replicate n _
  rw [List.getD_eq_getElem _ _ (by rw [hlen]; exact hi)]
  by_cases h : j = i
  · subst h
    rw [if_pos rfl]
    exact List.getElem_set_self _
  · rw [if_neg h, List.getElem_set_ne h _]
    exact List.getElem_replicate _ _

lemma basis_eq_map (n i : Nat) :
    (List.range n).map (fun j => if j = i then F.fin 1 else F.fin 0)
      = (Array.zeros n).set i (F.fin 1) := by
  apply List.ext_getElem
  · rw [List.length_map, List.length_range, List.length_set]
    exact (List.length_replicate n _).symm
  · intro k h1 h2
    rw [List.getElem_map, List.getElem_range]
    have hk : k < n := by simpa using h1
    by_cases hki : k = i
    · subst hki
      rw [if_pos rfl]
      exact (List.getElem_set_self _).symm
    · rw [if_neg hki, List.getElem_set_ne (fun h => hki h.symm) _]
      exact (List.getElem_replicate _ _).symm

lemma tMat_identity (n : Nat) : tMat (Matrix.identity n) = Matrix.identity n := by
  have harr : (List.range n).map (fun i =>
      (List.range n).map (fun j => entryD (Matrix.identity n) j i))
      = (List.range n).map (fun i => (Array.zeros n).set i (F.fin 1)) := by
    apply List.map_congr_left
    intro i hi
    have hi' : i < n := List.mem_range.mp hi
    have hent : ∀ j ∈ List.range n,
        entryD (Matrix.identity n) j i = if j = i then F.fin 1 else F.fin 0 := by
      intro j hj
      have hj' : j < n := List.mem_range.mp hj
      unfold entryD Matrix.identity
      rw [getD_map_range _ n j hj']
      exact basis_getD n j i hi'
    rw [List.map_congr_left hent]
    exact basis_eq_map n i
  show (⟨(Matrix.identity n).cols, (Matrix.identity n).rows,
    (List.range (Matrix.identity n).cols).map _⟩ : Matrix) = Matrix.identity n
  rw [show (Matrix.identity n).cols = n from rfl, show (Matrix.identity n).rows = n from rfl]
  show (⟨n, n, (List.range n).map (fun i =>
    (List.range n).map (fun j => entryD (Matrix.identity n) j i))⟩ : Matrix) = _
  rw [harr]
  rfl

lemma transpose_identity (n : Nat) :
    Matrix.transpose (Matrix.identity n) = some (Matrix.identity n) := by
  rw [transpose_eq _ (identity_wf n), tMat_identity n]

lemma identity_rowAt (n j : Nat) (hj : j < n) :
    (Matrix.identity n).rowAt j = some ((Array.zeros n).set j (F.fin 1)) := by
  unfold Matrix.rowAt Matrix.identity
  rw [if_pos hj, List.getElem?_map, List.getElem?_range hj]
  rfl

lemma foldl_mul_zero (rs : List F) :
    ∀ (c : ℚ), Array.noNaN rs →
      (List.zipWith F.mul (List.replicate rs.length (F.fin 0)) rs).foldl F.add (F.fin c)
        = F.fin c := by
  induction rs with
  | nil => intro c _; rfl
  | cons y ys ih =>
    intro c h
    obtain ⟨qy, hy⟩ : ∃ q, y = F.fin q := by
      cases y with
      | fin q => exact ⟨q, rfl⟩
      | nan => exact absurd rfl (h F.nan (List.mem_cons_self _ _))
    subst hy
    show (List.zipWith F.mul (F.fin 0 :: List.replicate ys.length (F.fin 0)) _).foldl
      F.add (F.fin c) = F.fin c
    rw [List.zipWith_cons_cons, List.foldl_cons]
    show (List.zipWith F.mul (List.replicate ys.length (F.fin 0)) ys).foldl
      F.add (F.fin (c + 0 * qy)) = F.fin c
    rw [ih (c + 0 * qy) (fun z hz => h z (List.mem_cons_of_mem _ hz))]
    congr 1
    ring

lemma basis_dot_fold (r : List F) :
    ∀ (j : Nat) (c : ℚ), j < r.length → Array.noNaN r →
      ∃ qj, r[j]? = some (F.fin qj) ∧
        (List.zipWith F.mul ((List.replicate r.length (F.fin 0)).set j (F.fin 1)) r).foldl
          F.add (F.fin c) = F.fin (c + qj) := by
  induction r with
  | nil => intro j c hj _; simp at hj
  | cons x xs ih =>
    intro j c hj h
    obtain ⟨qx, hx⟩ : ∃ q, x = F.fin q := by
      cases x with
      | fin q => exact ⟨q, rfl⟩
      | nan => exact absurd rfl (h F.nan (List.mem_cons_self _ _))
    subst hx
    cases j with
    | zero =>
      refine ⟨qx, List.getElem?_cons_zero, ?_⟩
      show (List.zipWith F.mul
        (F.fin 1 :: List.replicate xs.length (F.fin 0)) (F.fin qx :: xs)).foldl
        F.add (F.fin c) = F.fin (c + qx)
      rw [List.zipWith_cons_cons, List.foldl_cons]
      show (List.zipWith F.mul (List.replicate xs.length (F.fin 0)) xs).foldl
        F.add (F.fin (c + 1 * qx)) = F.fin (c + qx)
      rw [foldl_mul_zero xs (c + 1 * qx) (fun z hz => h z (List.mem_cons_of_mem _ hz))]
      congr 1
      ring
    | succ j =>
      obtain ⟨qj, hq, hfold⟩ := ih j (c + 0 * qx) (by simpa using hj)
        (fun z hz => h z (List.mem_cons_of_mem _ hz))
      refine ⟨qj, by simpa using hq, ?_⟩
      show (List.zipWith F.mul
        (F.fin 0 :: (List.replicate xs.length (F.fin 0)).set j (F.fin 1))
        (F.fin qx :: xs)).foldl F.add (F.fin c) = F.fin (c + qj)
      rw [List.zipWith_cons_cons, List.foldl_cons]
      show (List.zipWith F.mul ((List.replicate xs.length (F.fin 0)).set j (F.fin 1)) xs).foldl
        F.add (F.fin (c + 0 * qx)) = F.fin (c + qj)
      rw [hfold]
      congr 1
      ring

lemma basis_dot (r : List F) (j : Nat) (hj : j < r.length) (hnn : Array.noNaN r) :
    Array.dotp ((Array.zeros r.length).set j (F.fin 1)) r
      = some (r.getD j (F.fin 0)) := by
  obtain ⟨qj, hq, hfold⟩ := basis_dot_fold r j 0 hj hnn
  have hlen : ((Array.zeros r.length).set j (F.fin 1)).length = r.length := by
    rw [List.length_set]
    exact List.length_replicate _ _
  unfold Array.dotp Array.mult
  rw [if_pos hlen]
  show some ((List.zipWith F.mul ((List.replicate r.length (F.fin 0)).set j (F.fin 1)) r).foldl
    F.add (F.fin 0)) = _
  rw [hfold, List.getD_eq_getElem r (F.fin 0) hj]
  have : r[j] = F.fin qj := by
    have := List.getElem?_eq_getElem hj
    rw [hq] at this
    exact (Option.some_inj.mp this).symm
  rw [this, zero_add]

/-- C5 (amended): for every shape-invariant n×n Matrix A with no NaN entry,
identity(n).mult(&A) returns a Matrix structurally identical to A, and the
PartialEq comparison with A is true (it is false for any A containing NaN). -/
theorem identity_mult (n : Nat) (A : Matrix) (hWF : WF A)
    (hr : A.rows = n) (hc : A.cols = n) (hnn : Matrix.noNaN A) :
    ∃ M, Matrix.mult (Matrix.identity n) A = some M ∧ M = A ∧
      Matrix.eq M A = true := by
  obtain ⟨ar0, ac0, ad⟩ := A
  have hr' : ar0 = n := hr
  subst hr'
  have hc' : ar0 = ac0 := Eq.symm hc
  subst hc'
  have hadl : ad.length = ar0 := hWF.1
  have hrowlen : ∀ i, i < ar0 → (ad.getD i []).length = ar0 := by
    intro i hi
    exact row_length_of_wf ⟨ar0, ar0, ad⟩ hWF i hi
  have hrownn : ∀ i, i < ar0 → Array.noNaN (ad.getD i []) := by
    intro i hi
    have him : ad.getD i [] ∈ ad := by
      rw [List.getD_eq_getElem ad [] (by rw [hadl]; exact hi)]
      exact List.getElem_mem _
    exact fun x hx => hnn _ him x hx
  have hinner : ∀ i ∈ List.range ar0,
      optList ((List.range ar0).map (fun j =>
        ((Matrix.identity ar0).rowAt j).bind (fun rj =>
          ((⟨ar0, ar0, ad⟩ : Matrix).rowAt i).bind (fun ri => Array.dotp rj ri))))
      = some (ad.getD i []) := by
    intro i hi
    have hi' : i < ar0 := List.mem_range.mp hi
    have hrowi : (⟨ar0, ar0, ad⟩ : Matrix).rowAt i = some (ad.getD i []) :=
      rowAt_of_wf ⟨ar0, ar0, ad⟩ hWF i hi'
    have hper : ∀ j ∈ List.range ar0,
        ((Matrix.identity ar0).rowAt j).bind (fun rj =>
          ((⟨ar0, ar0, ad⟩ : Matrix).rowAt i).bind (fun ri => Array.dotp rj ri))
        = some ((ad.getD i []).getD j (F.fin 0)) := by
      intro j hj
      have hj' : j < ar0 := List.mem_range.mp hj
      rw [identity_rowAt ar0 j hj']
      show ((⟨ar0, ar0, ad⟩ : Matrix).rowAt i).bind
        (fun ri => Array.dotp ((Array.zeros ar0).set j (F.fin 1)) ri) = _
      rw [hrowi]
      show Array.dotp ((Array.zeros ar0).set j (F.fin 1)) (ad.getD i []) = _
      have hbd := basis_dot (ad.getD i []) j
        (by rw [hrowlen i hi']; exact hj') (hrownn i hi')
      rw [hrowlen i hi'] at hbd
      exact hbd
    rw [optList_map_some _ _ _ hper]
    rw [show ar0 = (ad.getD i []).length from (hrowlen i hi').symm,
      map_getD_range (ad.getD i []) (F.fin 0)]
  refine ⟨⟨ar0, ar0, ad⟩, ?_, rfl, matrix_eq_self _ hWF hnn⟩
  unfold Matrix.mult
  rw [if_pos (show (Matrix.identity ar0).rows = (⟨ar0, ar0, ad⟩ : Matrix).cols from rfl)]
  rw [transpose_identity ar0]
  show (optList ((List.range (Matrix.identity ar0).cols).map (fun i =>
      optList ((List.range (⟨ar0, ar0, ad⟩ : Matrix).rows).map (fun j =>
        ((Matrix.identity ar0).rowAt j).bind (fun rj =>
          ((⟨ar0, ar0, ad⟩ : Matrix).rowAt i).bind (fun ri => Array.dotp rj ri))))))).map
      (fun d => (⟨(⟨ar0, ar0, ad⟩ : Matrix).rows, (Matrix.identity ar0).cols, d⟩ : Matrix))
    = some ⟨ar0, ar0, ad⟩
  rw [show (Matrix.identity ar0).cols = ar0 from rfl,
    show (⟨ar0, ar0, ad⟩ : Matrix).rows = ar0 from rfl]
  rw [optList_map_some _ _ _ hinner]
  rw [show ar0 = ad.length from hadl.symm, map_getD_range ad []]
  rfl

/-- C5 witness: the amended identity law at the 2×2 matrix [[1,2],[3,4]]. -/
theorem identity_mult_witness :
    ∃ M, Matrix.mult (Matrix.identity 2)
        ⟨2, 2, [[F.fin 1, F.fin 2], [F.fin 3, F.fin 4]]⟩ = some M ∧
      M = ⟨2, 2, [[F.fin 1, F.fin 2], [F.fin 3, F.fin 4]]⟩ ∧
      Matrix.eq M ⟨2, 2, [[F.fin 1, F.fin 2], [F.fin 3, F.fin 4]]⟩ = true := by
  exact identity_mult 2 ⟨2, 2, [[F.fin 1, F.fin 2], [F.fin 3, F.fin 4]]⟩
    (by decide) (by decide) (by decide) (by decide)

end ConcreteEvaluation

end Moonalloy
